import Mathlib

/-!
# Major-system optimizer: phonetic encoding, validation and homonym grouping

A shallow embedding of the algorithmic core of the `major-system-optimizer`
repository (the `wordToPhonetics` / `phoneticToDigit` / `validateWord` /
`getValidPositionsForWord` functions of the word-list component, and the
`groupHomonyms` / `homonymConflicts` grouping logic), together with proofs
of the specified properties.

Strings are modelled through their character lists.  The JavaScript string
primitives used by the source (`toLowerCase`, `trim`, `replace(/[^a-z]/g,'')`,
`indexOf`, `Map`, `Set`) are embedded as explicit Lean functions on
`List Char` / association lists.  `toLowerCase` is modelled per character:
`'A'..'Z'` and U+212A KELVIN SIGN (the one other character whose Unicode
lowercase form is an ASCII letter, hence the one other character that can
survive the `[^a-z]` strip) are mapped; the only unconditional
length-changing mapping, U+0130 → `'i'` U+0307, is not representable per
character and is left unmapped — both its image characters map to no digit,
so no digit sequence depends on it.  `trim` removes common ASCII whitespace.
-/

namespace MajorSystem

/-- JS `String.prototype.toLowerCase`, per character: `'A'..'Z'` map to
`'a'..'z'`, and U+212A KELVIN SIGN — the one character outside `'A'..'Z'`
whose Unicode lowercase form is an ASCII letter — maps to `'k'`; every other
character maps to no ASCII letter and is left unchanged (its exact image is
irrelevant to the `[^a-z]` strip that follows). -/
def jsLowerChar (c : Char) : Char :=
  match c with
  | 'A' => 'a' | 'B' => 'b' | 'C' => 'c' | 'D' => 'd' | 'E' => 'e'
  | 'F' => 'f' | 'G' => 'g' | 'H' => 'h' | 'I' => 'i' | 'J' => 'j'
  | 'K' => 'k' | 'L' => 'l' | 'M' => 'm' | 'N' => 'n' | 'O' => 'o'
  | 'P' => 'p' | 'Q' => 'q' | 'R' => 'r' | 'S' => 's' | 'T' => 't'
  | 'U' => 'u' | 'V' => 'v' | 'W' => 'w' | 'X' => 'x' | 'Y' => 'y'
  | 'Z' => 'z'
  | '\u212A' => 'k'
  | c => c

/-- The whitespace characters removed by JS `String.prototype.trim`
(common ASCII whitespace; exotic Unicode space separators are not modelled). -/
def jsIsWS (c : Char) : Bool :=
  c = ' ' || c = '\t' || c = '\n' || c = '\r' || c = '\x0b' || c = '\x0c'

/-- JS `trim` on a character list: drop leading and trailing whitespace. -/
def trimChars (l : List Char) : List Char :=
  ((l.dropWhile jsIsWS).reverse.dropWhile jsIsWS).reverse

/-- JS `String.prototype.trim`. -/
def jsTrim (s : String) : String := String.mk (trimChars s.data)

/-- JS `String.prototype.toLowerCase` (ASCII model). -/
def jsToLower (s : String) : String := String.mk (s.data.map jsLowerChar)

/-- Is `c` one of `'a'..'z'`?  The characters kept by `replace(/[^a-z]/g, '')`. -/
def isLowerAZ (c : Char) : Bool := 'a' ≤ c && c ≤ 'z'

/-- `word.toLowerCase().replace(/[^a-z]/g, '')`, as a character list:
the normalization step of `wordToPhonetics`. -/
def normalize (word : String) : List Char :=
  (word.data.map jsLowerChar).filter isLowerAZ

/-- `nextChar === 'e' || nextChar === 'i' || nextChar === 'y'` where `nextChar`
is the head of the remaining input (JS `undefined` when the input ends). -/
def isSoftNext : List Char → Bool
  | 'e' :: _ => true
  | 'i' :: _ => true
  | 'y' :: _ => true
  | _ => false

/-- The scanning loop of `wordToPhonetics`: digraphs `ch`, `sh`, `th`, `ph`,
`qu` are matched first and consume two characters; `c` and `g` soften before
`e`, `i`, `y`; every other character is emitted unchanged. -/
def phoneticsAux : List Char → List String
  | [] => []
  | 'c' :: 'h' :: rest => "ch" :: phoneticsAux rest
  | 's' :: 'h' :: rest => "sh" :: phoneticsAux rest
  | 't' :: 'h' :: rest => "th" :: phoneticsAux rest
  | 'p' :: 'h' :: rest => "ph" :: phoneticsAux rest
  | 'q' :: 'u' :: rest => "qu" :: phoneticsAux rest
  | 'c' :: rest => (if isSoftNext rest then "s" else "k") :: phoneticsAux rest
  | 'g' :: rest => (if isSoftNext rest then "j" else "g") :: phoneticsAux rest
  | c :: rest => String.mk [c] :: phoneticsAux rest

/-- `wordToPhonetics`: normalize, then scan. -/
def wordToPhonetics (word : String) : List String :=
  phoneticsAux (normalize word)

/-- The fixed `digitMap` lookup table of `phoneticToDigit`. -/
def digitMap : List (String × Char) :=
  [("s", '0'), ("z", '0'),
   ("t", '1'), ("d", '1'), ("th", '1'),
   ("n", '2'),
   ("m", '3'),
   ("r", '4'),
   ("l", '5'),
   ("j", '6'), ("sh", '6'), ("ch", '6'),
   ("k", '7'), ("g", '7'), ("q", '7'), ("qu", '7'),
   ("f", '8'), ("v", '8'), ("ph", '8'),
   ("p", '9'), ("b", '9')]

/-- `phoneticToDigit`: look the symbol up in `digitMap`, `null` (here `none`)
when absent.  (In the source the digits are one-character strings; here they
are characters.) -/
def phoneticToDigit (phonetic : String) : Option Char :=
  (digitMap.find? (fun e => e.1 = phonetic)).map (·.2)

/-- The digit sequence of a word:
`wordToPhonetics(word).map(phoneticToDigit).filter(d => d !== null)`. -/
def wordDigits (word : String) : List Char :=
  (wordToPhonetics word).filterMap phoneticToDigit

/-- JS `Array.prototype.indexOf(c, start)` on the list obtained by dropping
`start` elements, returning the absolute index; `none` for `-1`. -/
def indexOfAux (c : Char) : List Char → Nat → Option Nat
  | [], _ => none
  | x :: xs, i => if x = c then some i else indexOfAux c xs (i + 1)

/-- `wordDigits.indexOf(c, start)`, as an `Option Nat`. -/
def indexOfFrom (l : List Char) (c : Char) (start : Nat) : Option Nat :=
  indexOfAux c (l.drop start) start

/-- The cursor loop of `validateWord`: for each expected digit take the first
occurrence at or after the cursor, advancing the cursor past it; fail when
there is none. -/
def checkFrom (digits : List Char) : List Char → Nat → Bool
  | [], _ => true
  | d :: ds, wordIndex =>
    match indexOfFrom digits d wordIndex with
    | none => false
    | some i => checkFrom digits ds (i + 1)

/-- `validateWord(num, word)`: blank words are vacuously valid, otherwise the
digits of `num` must occur in order in the word's digit sequence. -/
def validateWord (num word : String) : Bool :=
  if jsTrim word = "" then true
  else
    let expectedDigits := num.data
    if expectedDigits.length = 0 then true
    else checkFrom (wordDigits word) expectedDigits 0

/-- `i.toString().padStart(2, '0')`. -/
def toKey (i : Nat) : String :=
  let s := Nat.repr i
  String.mk (List.replicate (2 - s.length) '0') ++ s

/-- `getValidPositionsForWord`: blank words get no positions, otherwise the
keys `"00"`..`"99"` that `validateWord` accepts, in order. -/
def getValidPositionsForWord (word : String) : List String :=
  if jsTrim word = "" then []
  else ((List.range 100).map toKey).filter (fun num => validateWord num word)

/-! ## Homonym grouping (`services/homonyms.ts` and `homonymConflicts`)

The Double Metaphone phonetic key is an external npm dependency; following
the spec it is treated as a black box `pk : String → String` and the grouping
logic is parametric in it.  JS `Map`s (insertion-ordered) are modelled as
association lists, JS `Set`s as duplicate-free lists in insertion order. -/

/-- A group of words sharing a phonetic code (`HomonymGroup` of
`homonyms.ts`). -/
structure HomonymGroup where
  phoneticCode : String
  words : List String
deriving DecidableEq

/-- `if (!map.has(k)) map.set(k, []); map.get(k).push(v)` on an
insertion-ordered map. -/
def mapInsertAppend {β : Type} (m : List (String × List β)) (k : String) (v : β) :
    List (String × List β) :=
  match m with
  | [] => [(k, [v])]
  | (k', vs) :: rest =>
      if k' = k then (k', vs ++ [v]) :: rest else (k', vs) :: mapInsertAppend rest k v

/-- `map.get(k)`, as an option. -/
def mapFind? {β : Type} (m : List (String × List β)) (k : String) : Option (List β) :=
  (m.find? (fun e => e.1 = k)).map (·.2)

/-- `map.get(k) || []`. -/
def mapGetD {β : Type} (m : List (String × List β)) (k : String) : List β :=
  (mapFind? m k).getD []

/-- `map.set(k, v)`: overwrite the binding of `k`, appending it if absent. -/
def mapSet {β : Type} (m : List (String × List β)) (k : String) (v : List β) :
    List (String × List β) :=
  match m with
  | [] => [(k, v)]
  | (k', v') :: rest =>
      if k' = k then (k', v) :: rest else (k', v') :: mapSet rest k v

/-- `[...new Set(l)]`: remove duplicates keeping first occurrences. -/
def dedupFirstAux (seen : List String) : List String → List String
  | [] => []
  | w :: ws =>
      if w ∈ seen then dedupFirstAux seen ws else w :: dedupFirstAux (w :: seen) ws

/-- `[...new Set(l)]`. -/
def dedupFirst (l : List String) : List String := dedupFirstAux [] l

/-- The per-word normalization of `groupHomonyms`:
`(caseSensitive ? word : word.toLowerCase()).trim()`. -/
def normalizeHomonymWord (caseSensitive : Bool) (word : String) : String :=
  jsTrim (if caseSensitive then word else jsToLower word)

/-- The `phoneticMap` accumulation loop of `groupHomonyms`: skip blank words,
otherwise append the normalized word (the JS `trimmedWord`) under its phonetic
code. -/
def buildPhoneticMap (pk : String → String) (caseSensitive : Bool)
    (words : List String) : List (String × List String) :=
  words.foldl (fun m w =>
    if normalizeHomonymWord caseSensitive w = "" then m
    else mapInsertAppend m (pk (normalizeHomonymWord caseSensitive w))
      (normalizeHomonymWord caseSensitive w)) []

/-- `groupHomonyms`: keep the codes with more than one collected word
(counted with multiplicity), listing each group's words deduplicated. -/
def groupHomonyms (pk : String → String) (caseSensitive : Bool)
    (words : List String) : List HomonymGroup :=
  (buildPhoneticMap pk caseSensitive words).filterMap (fun e =>
    if 1 < e.2.length then some ⟨e.1, dedupFirst e.2⟩ else none)

/-- The `filledWords` step of `homonymConflicts`: keep the non-blank entries
of the table, with words trimmed and lowercased. -/
def filledWords (table : List (String × String)) : List (String × String) :=
  (table.filter (fun e => jsTrim e.2 ≠ "")).map (fun e => (e.1, jsToLower (jsTrim e.2)))

/-- The `wordToNumbers` map of `homonymConflicts`: numbers of the table,
grouped by their (normalized) word. -/
def wordToNumbers (fw : List (String × String)) : List (String × List String) :=
  fw.foldl (fun m e => mapInsertAppend m e.2 e.1) []

/-- `Set.prototype.add` on an insertion-ordered set. -/
def addUnique (s : List String) (x : String) : List String :=
  if x ∈ s then s else s ++ [x]

/-- The `numbersInGroup` set of `homonymConflicts`: all numbers whose word
belongs to the group. -/
def numbersInGroup (w2n : List (String × List String)) (g : HomonymGroup) :
    List String :=
  g.words.foldl (fun acc w => (mapGetD w2n w).foldl addUnique acc) []

/-- The group loop of `homonymConflicts`: for each group spanning more than
one number (`numbersList`), map every number of the group to the other
numbers of the group. -/
def conflictsFold (w2n : List (String × List String)) (groups : List HomonymGroup) :
    List (String × List String) :=
  groups.foldl (fun conflicts g =>
    if 1 < (numbersInGroup w2n g).length then
      (numbersInGroup w2n g).foldl
        (fun c num => mapSet c num ((numbersInGroup w2n g).filter (· ≠ num))) conflicts
    else conflicts) []

/-- `homonymConflicts`: an empty filled table gives an empty map; otherwise
group the filled words by phonetic key and run the conflict-recording loop. -/
def homonymConflicts (pk : String → String) (table : List (String × String)) :
    List (String × List String) :=
  if (filledWords table).length = 0 then []
  else
    conflictsFold (wordToNumbers (filledWords table))
      (groupHomonyms pk false ((filledWords table).map (·.2)))

/-- `homonymConflicts.get(num) || []`: the conflict list of a number. -/
def conflictList (pk : String → String) (table : List (String × String))
    (num : String) : List String :=
  mapGetD (homonymConflicts pk table) num

end MajorSystem

namespace MajorSystem

/-! ## Correctness of the cursor-based subsequence check -/

/-- The textbook greedy subsequence check, used as a stepping stone between
the index-based cursor loop of `validateWord` and `List.Sublist`. -/
def isSubseq : List Char → List Char → Bool
  | [], _ => true
  | _ :: _, [] => false
  | d :: ds, x :: xs => if x = d then isSubseq ds xs else isSubseq (d :: ds) xs

theorem isSubseq_iff_sublist (t l : List Char) : isSubseq t l = true ↔ List.Sublist t l := by
  induction l generalizing t with
  | nil =>
    cases t with
    | nil => simp [isSubseq]
    | cons d ds => simp [isSubseq]
  | cons x xs ih =>
    cases t with
    | nil => simp [isSubseq, List.nil_sublist]
    | cons d ds =>
      by_cases hx : x = d
      · subst hx
        rw [isSubseq, if_pos rfl]
        constructor
        · intro h
          exact List.Sublist.cons₂ x ((ih ds).mp h)
        · intro h
          exact (ih ds).mpr (List.cons_sublist_cons.mp h)
      · rw [isSubseq, if_neg hx]
        constructor
        · intro h
          exact List.Sublist.cons x ((ih (d :: ds)).mp h)
        · intro h
          cases h with
          | cons _ h' => exact (ih (d :: ds)).mpr h'
          | cons₂ _ h' => exact absurd rfl hx

theorem indexOfAux_eq_none {c : Char} {L : List Char} {i : Nat}
    (h : indexOfAux c L i = none) : c ∉ L := by
  induction L generalizing i with
  | nil => simp
  | cons x xs ih =>
    rw [indexOfAux] at h
    split at h
    · exact absurd h (by simp)
    · next hx =>
      intro hm
      rcases List.mem_cons.mp hm with h1 | h1
      · exact hx h1.symm
      · exact ih h h1

/-- The cursor loop of `validateWord` computes the greedy subsequence check on
the digits at or after the cursor. -/
theorem checkFrom_eq_isSubseq (l expected : List Char) (start : Nat) :
    checkFrom l expected start = isSubseq expected (l.drop start) := by
  suffices h : ∀ n expected start, l.length - start ≤ n →
      checkFrom l expected start = isSubseq expected (l.drop start) from
    h (l.length - start) expected start le_rfl
  intro n
  induction n with
  | zero =>
    intro expected start hle
    have hnil : l.drop start = [] := List.drop_eq_nil_of_le (by omega)
    cases expected with
    | nil => simp [checkFrom, isSubseq]
    | cons d ds =>
      rw [checkFrom, indexOfFrom, hnil, indexOfAux]
      simp [isSubseq]
  | succ n ih =>
    intro expected start hle
    cases hdrop : l.drop start with
    | nil =>
      cases expected with
      | nil => simp [checkFrom, isSubseq]
      | cons d ds =>
        rw [checkFrom, indexOfFrom, hdrop, indexOfAux]
        simp [isSubseq]
    | cons x xs =>
      have hstart : start < l.length := by
        by_contra hc
        rw [List.drop_eq_nil_of_le (by omega)] at hdrop
        exact List.noConfusion hdrop
      have hxs : l.drop (start + 1) = xs := by
        rw [← List.drop_drop, hdrop, List.drop_one]
        rfl
      cases expected with
      | nil => simp [checkFrom, isSubseq]
      | cons d ds =>
        rw [checkFrom, indexOfFrom, hdrop, indexOfAux]
        by_cases hx : x = d
        · rw [if_pos hx]
          show checkFrom l ds (start + 1) = isSubseq (d :: ds) (x :: xs)
          rw [ih ds (start + 1) (by omega), hxs]
          simp [isSubseq, hx]
        · rw [if_neg hx]
          have hrec : indexOfAux d xs (start + 1) = indexOfFrom l d (start + 1) := by
            rw [indexOfFrom, hxs]
          rw [hrec]
          have hih : checkFrom l (d :: ds) (start + 1)
              = isSubseq (d :: ds) (l.drop (start + 1)) := ih (d :: ds) (start + 1) (by omega)
          rw [checkFrom] at hih
          rw [hih, hxs]
          simp [isSubseq, hx]

/-- For a word that is not blank, `validateWord` decides exactly whether the
key's digits are a (not necessarily contiguous) subsequence of the word's
digit sequence. -/
theorem validateWord_iff_sublist (num word : String) (hw : jsTrim word ≠ "") :
    validateWord num word = true ↔ List.Sublist num.data (wordDigits word) := by
  simp only [validateWord, if_neg hw]
  by_cases hlen : num.data.length = 0
  · rw [if_pos hlen]
    have hnil : num.data = [] := List.length_eq_zero.mp hlen
    simp [hnil, List.nil_sublist]
  · rw [if_neg hlen]
    rw [checkFrom_eq_isSubseq, List.drop_zero]
    exact isSubseq_iff_sublist num.data (wordDigits word)

example : wordDigits "tea" = ['1'] := by decide
example : wordDigits "tooth" = ['1', '1'] := by decide
example : validateWord "12" "tan" = true := by decide
example : validateWord "21" "tan" = false := by decide
example : validateWord "11" "tooth" = true := by decide
example : validateWord "10" "tooth" = false := by decide
example : toKey 7 = "07" ∧ toKey 42 = "42" := by decide
example : groupHomonyms (fun _ => "0R") false ["there", "their"]
    = [⟨"0R", ["there", "their"]⟩] := by decide
example : groupHomonyms (fun _ => "0R") false ["there", "there"]
    = [⟨"0R", ["there"]⟩] := by decide
example : homonymConflicts (fun w => w) [("00", "aa"), ("01", "aa")]
    = [("00", ["01"]), ("01", ["00"])] := by decide
example : conflictList (fun w => w) [("00", "aa"), ("01", "aa")] "00" = ["01"] := by decide

/-! ## Association-list (JS Map) lemmas -/

theorem mapFind?_cons {β : Type} (k0 : String) (vs : List β)
    (rest : List (String × List β)) (k' : String) :
    mapFind? ((k0, vs) :: rest) k' = if k0 = k' then some vs else mapFind? rest k' := by
  by_cases h : k0 = k'
  · subst h
    rw [mapFind?, List.find?_cons_of_pos _ (by simp)]
    simp
  · rw [mapFind?, List.find?_cons_of_neg _ (by simp [h]), if_neg h, mapFind?]

theorem mapGetD_cons {β : Type} (k0 : String) (vs : List β)
    (rest : List (String × List β)) (k' : String) :
    mapGetD ((k0, vs) :: rest) k' = if k0 = k' then vs else mapGetD rest k' := by
  rw [mapGetD, mapFind?_cons]
  by_cases h : k0 = k'
  · simp [h]
  · simp [h, mapGetD]

theorem mapFind?_insertAppend {β : Type} (m : List (String × List β)) (k : String) (v : β)
    (k' : String) :
    mapFind? (mapInsertAppend m k v) k' =
      if k = k' then some (mapGetD m k' ++ [v]) else mapFind? m k' := by
  induction m with
  | nil =>
    rw [mapInsertAppend, mapFind?_cons]
    by_cases h : k = k'
    · simp [h, mapGetD, mapFind?]
    · simp [h, mapFind?]
  | cons e rest ih =>
    obtain ⟨k0, vs0⟩ := e
    rw [mapInsertAppend]
    by_cases h0 : k0 = k
    · subst h0
      rw [if_pos rfl, mapFind?_cons, mapFind?_cons, mapGetD_cons]
      by_cases h : k0 = k'
      · simp [h]
      · simp [h]
    · rw [if_neg h0, mapFind?_cons, ih, mapFind?_cons, mapGetD_cons]
      by_cases h : k0 = k'
      · have hk : ¬ k = k' := fun hc => h0 (hc ▸ h.symm ▸ rfl)
        simp [h, hk]
      · simp [h]

theorem mapGetD_insertAppend {β : Type} (m : List (String × List β)) (k : String) (v : β)
    (k' : String) :
    mapGetD (mapInsertAppend m k v) k' =
      if k = k' then mapGetD m k' ++ [v] else mapGetD m k' := by
  rw [mapGetD, mapFind?_insertAppend]
  by_cases h : k = k'
  · simp [h]
  · simp [h, mapGetD]

theorem keys_insertAppend {β : Type} (m : List (String × List β)) (k : String) (v : β) :
    (mapInsertAppend m k v).map Prod.fst =
      if k ∈ m.map Prod.fst then m.map Prod.fst else m.map Prod.fst ++ [k] := by
  induction m with
  | nil => simp [mapInsertAppend]
  | cons e rest ih =>
    obtain ⟨k0, vs0⟩ := e
    rw [mapInsertAppend]
    by_cases h0 : k0 = k
    · subst h0
      simp
    · rw [if_neg h0, List.map_cons, ih]
      by_cases h : k ∈ rest.map Prod.fst
      · rw [if_pos h, List.map_cons]
        rw [if_pos (by simp [h])]
      · rw [if_neg h, List.map_cons]
        have hnotin : k ∉ k0 :: rest.map Prod.fst := by
          intro hm
          rcases List.mem_cons.mp hm with h1 | h1
          · exact h0 h1.symm
          · exact h h1
        rw [if_neg hnotin, List.cons_append]

theorem nodupKeys_insertAppend {β : Type} {m : List (String × List β)}
    (hnd : (m.map Prod.fst).Nodup) (k : String) (v : β) :
    ((mapInsertAppend m k v).map Prod.fst).Nodup := by
  rw [keys_insertAppend]
  by_cases h : k ∈ m.map Prod.fst
  · rwa [if_pos h]
  · rw [if_neg h, List.nodup_append]
    refine ⟨hnd, List.nodup_singleton k, ?_⟩
    intro a ha hak
    rw [List.mem_singleton] at hak
    subst hak
    exact h ha

theorem mem_of_mapFind?_eq_some {β : Type} {m : List (String × List β)} {k : String}
    {vs : List β} (h : mapFind? m k = some vs) : (k, vs) ∈ m := by
  induction m with
  | nil => simp [mapFind?] at h
  | cons e rest ih =>
    obtain ⟨k0, vs0⟩ := e
    rw [mapFind?_cons] at h
    by_cases h0 : k0 = k
    · rw [if_pos h0] at h
      subst h0
      cases h
      exact List.mem_cons_self _ _
    · rw [if_neg h0] at h
      exact List.mem_cons_of_mem _ (ih h)

theorem mapFind?_eq_some_of_mem {β : Type} {m : List (String × List β)}
    (hnd : (m.map Prod.fst).Nodup) {k : String} {vs : List β}
    (h : (k, vs) ∈ m) : mapFind? m k = some vs := by
  induction m with
  | nil => simp at h
  | cons e rest ih =>
    obtain ⟨k0, vs0⟩ := e
    rw [List.map_cons, List.nodup_cons] at hnd
    rcases List.mem_cons.mp h with h1 | h1
    · cases h1
      rw [mapFind?_cons, if_pos rfl]
    · rw [mapFind?_cons]
      have hk : k0 ≠ k := by
        intro hc
        subst hc
        exact hnd.1 (List.mem_map.mpr ⟨(k0, vs), h1, rfl⟩)
      rw [if_neg hk]
      exact ih hnd.2 h1

theorem mapFind?_eq_none_iff {β : Type} (m : List (String × List β)) (k : String) :
    mapFind? m k = none ↔ k ∉ m.map Prod.fst := by
  induction m with
  | nil => simp [mapFind?]
  | cons e rest ih =>
    obtain ⟨k0, vs0⟩ := e
    rw [mapFind?_cons]
    by_cases h0 : k0 = k
    · simp [h0]
    · rw [if_neg h0, ih, List.map_cons]
      constructor
      · intro hk hm
        rcases List.mem_cons.mp hm with h1 | h1
        · exact h0 h1.symm
        · exact hk h1
      · intro hk hm
        exact hk (List.mem_cons_of_mem _ hm)

/-! ## Grouping folds

Both `buildPhoneticMap` and `wordToNumbers` are folds of `mapInsertAppend`
over a list; `groupFold` abstracts them, and its result is characterized as
grouping-by-key. -/

/-- Fold a list into an insertion-ordered multimap, keyed by `key`, storing
`val`. -/
def groupFold {α β : Type} (key : α → String) (val : α → β) (xs : List α)
    (init : List (String × List β)) : List (String × List β) :=
  xs.foldl (fun m x => mapInsertAppend m (key x) (val x)) init

theorem mapGetD_groupFold {α β : Type} (key : α → String) (val : α → β)
    (xs : List α) (init : List (String × List β)) (k : String) :
    mapGetD (groupFold key val xs init) k
      = mapGetD init k ++ (xs.filter (fun x => key x = k)).map val := by
  induction xs generalizing init with
  | nil => simp [groupFold]
  | cons x xs ih =>
    rw [groupFold, List.foldl_cons]
    have hstep := ih (mapInsertAppend init (key x) (val x))
    rw [groupFold] at hstep
    rw [hstep, mapGetD_insertAppend, List.filter_cons]
    by_cases h : key x = k
    · rw [if_pos h, if_pos (by simp [h]), List.map_cons, List.append_assoc,
        List.singleton_append]
    · rw [if_neg h, if_neg (by simp [h])]

theorem keys_groupFold {α β : Type} (key : α → String) (val : α → β)
    (xs : List α) (init : List (String × List β)) (k : String) :
    k ∈ (groupFold key val xs init).map Prod.fst
      ↔ k ∈ init.map Prod.fst ∨ ∃ x ∈ xs, key x = k := by
  induction xs generalizing init with
  | nil => simp [groupFold]
  | cons x xs ih =>
    rw [groupFold, List.foldl_cons]
    have hstep := ih (mapInsertAppend init (key x) (val x))
    rw [groupFold] at hstep
    rw [hstep, keys_insertAppend]
    by_cases h : key x ∈ init.map Prod.fst
    · rw [if_pos h]
      constructor
      · intro hc
        rcases hc with hc | hc
        · exact Or.inl hc
        · exact Or.inr ⟨_, List.mem_cons_of_mem _ hc.choose_spec.1, hc.choose_spec.2⟩
      · intro hc
        rcases hc with hc | ⟨y, hy, hky⟩
        · exact Or.inl hc
        · rcases List.mem_cons.mp hy with rfl | hy'
          · exact Or.inl (hky ▸ h)
          · exact Or.inr ⟨y, hy', hky⟩
    · rw [if_neg h]
      rw [List.mem_append, List.mem_singleton]
      constructor
      · intro hc
        rcases hc with (hc | hc) | hc
        · exact Or.inl hc
        · exact Or.inr ⟨x, List.mem_cons_self _ _, hc.symm⟩
        · exact Or.inr ⟨_, List.mem_cons_of_mem _ hc.choose_spec.1, hc.choose_spec.2⟩
      · intro hc
        rcases hc with hc | ⟨y, hy, hky⟩
        · exact Or.inl (Or.inl hc)
        · rcases List.mem_cons.mp hy with rfl | hy'
          · exact Or.inl (Or.inr hky.symm)
          · exact Or.inr ⟨y, hy', hky⟩

theorem nodupKeys_groupFold {α β : Type} (key : α → String) (val : α → β)
    (xs : List α) (init : List (String × List β))
    (hnd : (init.map Prod.fst).Nodup) :
    ((groupFold key val xs init).map Prod.fst).Nodup := by
  induction xs generalizing init with
  | nil => exact hnd
  | cons x xs ih =>
    rw [groupFold, List.foldl_cons]
    have hstep := ih (mapInsertAppend init (key x) (val x))
      (nodupKeys_insertAppend hnd _ _)
    rw [groupFold] at hstep
    exact hstep

theorem mem_groupFold_iff {α β : Type} (key : α → String) (val : α → β)
    (xs : List α) (k : String) (vs : List β) :
    (k, vs) ∈ groupFold key val xs []
      ↔ vs = (xs.filter (fun x => key x = k)).map val ∧ vs ≠ [] := by
  have hnd : ((groupFold key val xs []).map Prod.fst).Nodup :=
    nodupKeys_groupFold key val xs [] (by simp)
  constructor
  · intro hm
    have hf : mapFind? (groupFold key val xs []) k = some vs :=
      mapFind?_eq_some_of_mem hnd hm
    have hval : mapGetD (groupFold key val xs []) k = vs := by
      rw [mapGetD, hf]
      rfl
    rw [mapGetD_groupFold] at hval
    simp only [mapGetD, mapFind?, List.find?_nil, Option.map_none', Option.getD_none,
      List.nil_append] at hval
    refine ⟨hval.symm, ?_⟩
    intro hnil
    subst hnil
    have hk : k ∈ (groupFold key val xs []).map Prod.fst :=
      List.mem_map.mpr ⟨(k, []), hm, rfl⟩
    rcases (keys_groupFold key val xs [] k).mp hk with hc | ⟨x, hx, hkx⟩
    · simp at hc
    · have hmem : val x ∈ ([] : List β) := by
        rw [← hval]
        exact List.mem_map_of_mem val (List.mem_filter.mpr ⟨hx, by simp [hkx]⟩)
      simp at hmem
  · rintro ⟨hvs, hne⟩
    have hfilterne : (xs.filter (fun x => key x = k)).map val ≠ [] := by
      rw [← hvs]
      exact hne
    have hx : ∃ x ∈ xs, key x = k := by
      rcases List.exists_mem_of_ne_nil _ hfilterne with ⟨b, hb⟩
      rcases List.mem_map.mp hb with ⟨x, hxf, _⟩
      have hxx := List.mem_filter.mp hxf
      exact ⟨x, hxx.1, by simpa using hxx.2⟩
    have hk : k ∈ (groupFold key val xs []).map Prod.fst :=
      (keys_groupFold key val xs [] k).mpr (Or.inr hx)
    have hssome : mapFind? (groupFold key val xs []) k ≠ none := by
      intro hc
      rw [mapFind?_eq_none_iff] at hc
      exact hc hk
    rcases Option.ne_none_iff_exists'.mp hssome with ⟨vs', hvs'⟩
    have hval : vs' = vs := by
      have hgd := mapGetD_groupFold key val xs [] k
      rw [mapGetD, hvs'] at hgd
      simp only [Option.getD_some] at hgd
      have hnil : mapGetD ([] : List (String × List β)) k = [] := rfl
      rw [hnil, List.nil_append] at hgd
      rw [hgd, ← hvs]
    subst hval
    exact mem_of_mapFind?_eq_some hvs'

/-! ## Characterization of `groupHomonyms` -/

/-- The non-blank normalized words of the input, in order: the list that
`groupHomonyms` actually partitions. -/
def normKept (caseSensitive : Bool) (ws : List String) : List String :=
  (ws.map (normalizeHomonymWord caseSensitive)).filter (fun t => t ≠ "")

theorem buildPhoneticMap_eq_groupFold (pk : String → String) (cs : Bool)
    (ws : List String) :
    buildPhoneticMap pk cs ws = groupFold pk id (normKept cs ws) [] := by
  rw [buildPhoneticMap, groupFold]
  generalize ([] : List (String × List String)) = init
  induction ws generalizing init with
  | nil => simp [normKept]
  | cons w ws ih =>
    rw [List.foldl_cons]
    by_cases h : normalizeHomonymWord cs w = ""
    · have hkept : normKept cs (w :: ws) = normKept cs ws := by
        rw [normKept, List.map_cons, List.filter_cons, if_neg (by simp [h])]
        rfl
      rw [hkept]
      have hstep : (if normalizeHomonymWord cs w = "" then init
          else mapInsertAppend init (pk (normalizeHomonymWord cs w))
            (normalizeHomonymWord cs w)) = init := if_pos h
      rw [hstep]
      exact ih init
    · have hkept : normKept cs (w :: ws)
          = normalizeHomonymWord cs w :: normKept cs ws := by
        rw [normKept, List.map_cons, List.filter_cons, if_pos (by simp [h])]
        rfl
      rw [hkept, List.foldl_cons]
      have hstep : (if normalizeHomonymWord cs w = "" then init
          else mapInsertAppend init (pk (normalizeHomonymWord cs w))
            (normalizeHomonymWord cs w))
          = mapInsertAppend init (pk (normalizeHomonymWord cs w))
            (normalizeHomonymWord cs w) := if_neg h
      rw [hstep]
      exact ih (mapInsertAppend init (pk (normalizeHomonymWord cs w))
        (normalizeHomonymWord cs w))

theorem dedupFirstAux_mem (x : String) :
    ∀ (l seen : List String), x ∈ dedupFirstAux seen l ↔ x ∈ l ∧ x ∉ seen := by
  intro l
  induction l with
  | nil => intro seen; simp [dedupFirstAux]
  | cons w ws ih =>
    intro seen
    rw [dedupFirstAux]
    by_cases h : w ∈ seen
    · rw [if_pos h, ih seen]
      constructor
      · intro hc
        exact ⟨List.mem_cons_of_mem _ hc.1, hc.2⟩
      · intro hc
        rcases List.mem_cons.mp hc.1 with rfl | h1
        · exact absurd h hc.2
        · exact ⟨h1, hc.2⟩
    · rw [if_neg h, List.mem_cons, ih (w :: seen)]
      constructor
      · intro hc
        rcases hc with rfl | ⟨h1, h2⟩
        · exact ⟨List.mem_cons_self _ _, h⟩
        · exact ⟨List.mem_cons_of_mem _ h1,
            fun hs => h2 (List.mem_cons_of_mem _ hs)⟩
      · intro hc
        rcases List.mem_cons.mp hc.1 with rfl | h1
        · exact Or.inl rfl
        · by_cases hw : x = w
          · exact Or.inl hw
          · exact Or.inr ⟨h1, fun hs => by
              rcases List.mem_cons.mp hs with h2 | h2
              · exact hw h2
              · exact hc.2 h2⟩

theorem dedupFirst_mem (x : String) (l : List String) :
    x ∈ dedupFirst l ↔ x ∈ l := by
  rw [dedupFirst, dedupFirstAux_mem]
  simp

/-- Membership in `groupHomonyms`: the groups are exactly the phonetic-key
classes of the non-blank normalized input words holding more than one word
occurrence, listed with their distinct words. -/
theorem mem_groupHomonyms_iff (pk : String → String) (cs : Bool)
    (ws : List String) (g : HomonymGroup) :
    g ∈ groupHomonyms pk cs ws
      ↔ ∃ code : String,
          1 < ((normKept cs ws).filter (fun w => pk w = code)).length ∧
          g = ⟨code, dedupFirst ((normKept cs ws).filter (fun w => pk w = code))⟩ := by
  rw [groupHomonyms, buildPhoneticMap_eq_groupFold, List.mem_filterMap]
  constructor
  · rintro ⟨⟨code, vs⟩, hmem, hsome⟩
    rcases (mem_groupFold_iff pk id (normKept cs ws) code vs).mp hmem with ⟨hvs, -⟩
    rw [List.map_id] at hvs
    by_cases hlen : 1 < vs.length
    · rw [if_pos hlen] at hsome
      cases hsome
      exact ⟨code, by rw [← hvs]; exact hlen, by rw [hvs]⟩
    · rw [if_neg hlen] at hsome
      cases hsome
  · rintro ⟨code, hlen, rfl⟩
    refine ⟨(code, (normKept cs ws).filter (fun w => pk w = code)), ?_, ?_⟩
    · rw [mem_groupFold_iff, List.map_id]
      refine ⟨rfl, ?_⟩
      intro hc
      rw [hc] at hlen
      simp at hlen
    · rw [if_pos hlen]

/-! ## Stability of the JS string normalizations

`homonymConflicts` passes already trimmed-and-lowercased words into
`groupHomonyms`, which normalizes them again; the re-normalization is the
identity on such words. -/

def lowerAZList : List Char :=
  ['a', 'b', 'c', 'd', 'e', 'f', 'g', 'h', 'i', 'j', 'k', 'l', 'm',
   'n', 'o', 'p', 'q', 'r', 's', 't', 'u', 'v', 'w', 'x', 'y', 'z']

theorem jsLowerChar_cases (c : Char) :
    jsLowerChar c = c ∨ (jsLowerChar c ∈ lowerAZList ∧ jsIsWS c = false) := by
  unfold jsLowerChar
  split
  all_goals first
    | exact Or.inl rfl
    | exact Or.inr ⟨by decide, by decide⟩

theorem jsLowerChar_fix_lower : ∀ c ∈ lowerAZList, jsLowerChar c = c := by decide

theorem jsIsWS_lower : ∀ c ∈ lowerAZList, jsIsWS c = false := by decide

theorem jsLowerChar_idem (c : Char) : jsLowerChar (jsLowerChar c) = jsLowerChar c := by
  rcases jsLowerChar_cases c with h | ⟨h, -⟩
  · simp only [h]
  · exact jsLowerChar_fix_lower _ h

theorem jsIsWS_lowerChar (c : Char) : jsIsWS (jsLowerChar c) = jsIsWS c := by
  rcases jsLowerChar_cases c with h | ⟨hl, hws⟩
  · rw [h]
  · rw [jsIsWS_lower _ hl, hws]

theorem dropWhile_idem (p : Char → Bool) (l : List Char) :
    (l.dropWhile p).dropWhile p = l.dropWhile p := by
  induction l with
  | nil => rfl
  | cons x xs ih =>
    rw [List.dropWhile_cons]
    by_cases h : p x = true
    · rw [if_pos h]
      exact ih
    · rw [if_neg h, List.dropWhile_cons, if_neg h]

theorem dropWhile_head_not (p : Char → Bool) (l : List Char) :
    l.dropWhile p = [] ∨ ∃ x xs, l.dropWhile p = x :: xs ∧ p x = false := by
  induction l with
  | nil => exact Or.inl rfl
  | cons y ys ih =>
    rw [List.dropWhile_cons]
    by_cases h : p y = true
    · rw [if_pos h]
      exact ih
    · rw [if_neg h]
      exact Or.inr ⟨y, ys, rfl, by simpa using h⟩

theorem dropWhile_of_head_not {p : Char → Bool} {x : Char} {xs : List Char}
    (h : p x = false) : (x :: xs).dropWhile p = x :: xs := by
  rw [List.dropWhile_cons, if_neg (by simp [h])]

theorem trimChars_idem (l : List Char) : trimChars (trimChars l) = trimChars l := by
  set A := l.dropWhile jsIsWS with hA
  set B := A.reverse.dropWhile jsIsWS with hB
  have ht : trimChars l = B.reverse := rfl
  have hBfix : B.dropWhile jsIsWS = B := by
    rw [hB]
    exact dropWhile_idem jsIsWS A.reverse
  have htfix : B.reverse.dropWhile jsIsWS = B.reverse := by
    cases hBr : B.reverse with
    | nil => rfl
    | cons y t' =>
      have hpre : List.IsPrefix B.reverse A := by
        have hsuf : List.IsSuffix B A.reverse := by
          rw [hB]
          exact List.dropWhile_suffix jsIsWS
        have := List.reverse_prefix.mpr hsuf
        rwa [List.reverse_reverse] at this
      rcases hpre with ⟨r, hr⟩
      rw [hBr] at hr
      rcases dropWhile_head_not jsIsWS l with hnil | ⟨x, xs, hxxs, hx⟩
      · rw [← hA] at hnil
        rw [hnil] at hr
        exact absurd hr.symm (by simp)
      · rw [← hA] at hxxs
        rw [hxxs] at hr
        have hy : y = x := by
          injection (show y :: (t' ++ r) = x :: xs from hr) with h3 h4
        rw [hy]
        exact dropWhile_of_head_not hx
  rw [ht, trimChars, htfix, List.reverse_reverse, hBfix]

theorem trimChars_map_lower (l : List Char) :
    trimChars (l.map jsLowerChar) = (trimChars l).map jsLowerChar := by
  have hpred : (jsIsWS ∘ jsLowerChar) = jsIsWS := funext jsIsWS_lowerChar
  rw [trimChars, trimChars, List.dropWhile_map, hpred, ← List.map_reverse,
    List.dropWhile_map, hpred, ← List.map_reverse]

theorem jsToLower_data (s : String) : (jsToLower s).data = s.data.map jsLowerChar := rfl

theorem jsTrim_data (s : String) : (jsTrim s).data = trimChars s.data := rfl

theorem string_eq_empty_iff (s : String) : s = "" ↔ s.data = [] := by
  cases s with
  | mk data =>
    constructor
    · intro h
      exact congrArg String.data h
    · intro h
      subst h
      rfl

theorem jsToLower_idem (s : String) : jsToLower (jsToLower s) = jsToLower s := by
  apply congrArg String.mk
  show (s.data.map jsLowerChar).map jsLowerChar = s.data.map jsLowerChar
  rw [List.map_map]
  exact congrArg (fun f => List.map f s.data) (funext jsLowerChar_idem)

/-- Re-normalizing an already trimmed-and-lowercased word (as produced by
`filledWords`) is the identity. -/
theorem normalizeHomonymWord_stable (s : String) :
    normalizeHomonymWord false (jsToLower (jsTrim s)) = jsToLower (jsTrim s) := by
  rw [normalizeHomonymWord, if_neg (by simp), jsToLower_idem]
  show String.mk (trimChars ((trimChars s.data).map jsLowerChar))
      = String.mk ((trimChars s.data).map jsLowerChar)
  rw [trimChars_map_lower, trimChars_idem]

theorem jsToLower_ne_empty {s : String} (h : s ≠ "") : jsToLower s ≠ "" := by
  intro hc
  rw [string_eq_empty_iff, jsToLower_data, List.map_eq_nil_iff] at hc
  exact h ((string_eq_empty_iff s).mpr hc)

/-! ## Facts about `filledWords`, `wordToNumbers` and `numbersInGroup` -/

theorem filledWords_mem {t : List (String × String)} {e : String × String}
    (h : e ∈ filledWords t) :
    ∃ raw, (e.1, raw) ∈ t ∧ jsTrim raw ≠ "" ∧ e.2 = jsToLower (jsTrim raw) := by
  rw [filledWords] at h
  rcases List.mem_map.mp h with ⟨e0, he0, heq⟩
  have hf := List.mem_filter.mp he0
  refine ⟨e0.2, ?_, by simpa using hf.2, ?_⟩
  · have h1 : e.1 = e0.1 := by rw [← heq]
    rw [h1]
    have heta : (e0.1, e0.2) ∈ t ↔ e0 ∈ t := by rw [Prod.mk.eta]
    exact heta.mpr hf.1
  · rw [← heq]

theorem map_id_of_fix {f : String → String} :
    ∀ {l : List String}, (∀ a ∈ l, f a = a) → l.map f = l := by
  intro l
  induction l with
  | nil => intro _; rfl
  | cons x xs ih =>
    intro h
    rw [List.map_cons, h x (List.mem_cons_self _ _),
      ih (fun a ha => h a (List.mem_cons_of_mem _ ha))]

theorem allWords_stable (t : List (String × String)) :
    ∀ w ∈ (filledWords t).map (fun e => e.2),
      normalizeHomonymWord false w = w ∧ w ≠ "" := by
  intro w hw
  rcases List.mem_map.mp hw with ⟨e, he, rfl⟩
  rcases filledWords_mem he with ⟨raw, -, hraw, hw2⟩
  rw [hw2]
  exact ⟨normalizeHomonymWord_stable raw, jsToLower_ne_empty hraw⟩

theorem normKept_allWords (t : List (String × String)) :
    normKept false ((filledWords t).map (fun e => e.2))
      = (filledWords t).map (fun e => e.2) := by
  rw [normKept, map_id_of_fix (fun a ha => (allWords_stable t a ha).1)]
  rw [List.filter_eq_self]
  intro a ha
  simpa using (allWords_stable t a ha).2

theorem filledWords_keys_nodup {t : List (String × String)}
    (hnd : (t.map Prod.fst).Nodup) : ((filledWords t).map Prod.fst).Nodup := by
  have h1 : (filledWords t).map Prod.fst
      = (t.filter (fun e => jsTrim e.2 ≠ "")).map Prod.fst := by
    rw [filledWords, List.map_map]
    rfl
  rw [h1]
  exact hnd.sublist (List.Sublist.map Prod.fst (List.filter_sublist t))

theorem keys_unique {l : List (String × String)} (hnd : (l.map Prod.fst).Nodup)
    {n w1 w2 : String} (h1 : (n, w1) ∈ l) (h2 : (n, w2) ∈ l) : w1 = w2 := by
  induction l with
  | nil => simp at h1
  | cons e rest ih =>
    rw [List.map_cons, List.nodup_cons] at hnd
    rcases List.mem_cons.mp h1 with h1' | h1' <;> rcases List.mem_cons.mp h2 with h2' | h2'
    · exact congrArg Prod.snd (h1'.trans h2'.symm)
    · exfalso
      apply hnd.1
      have hn : e.1 = n := congrArg Prod.fst h1'.symm
      rw [hn]
      exact List.mem_map.mpr ⟨(n, w2), h2', rfl⟩
    · exfalso
      apply hnd.1
      have hn : e.1 = n := congrArg Prod.fst h2'.symm
      rw [hn]
      exact List.mem_map.mpr ⟨(n, w1), h1', rfl⟩
    · exact ih hnd.2 h1' h2'

theorem mem_addUnique (s : List String) (x y : String) :
    y ∈ addUnique s x ↔ y ∈ s ∨ y = x := by
  rw [addUnique]
  by_cases h : x ∈ s
  · rw [if_pos h]
    constructor
    · exact Or.inl
    · rintro (hy | rfl)
      · exact hy
      · exact h
  · rw [if_neg h]
    simp [List.mem_append]

theorem nodup_addUnique {s : List String} (hnd : s.Nodup) (x : String) :
    (addUnique s x).Nodup := by
  rw [addUnique]
  by_cases h : x ∈ s
  · rwa [if_pos h]
  · rw [if_neg h, List.nodup_append]
    refine ⟨hnd, List.nodup_singleton x, ?_⟩
    intro a ha hax
    rw [List.mem_singleton] at hax
    subst hax
    exact h ha

theorem mem_foldl_addUnique (l : List String) :
    ∀ (acc : List String) (x : String),
      x ∈ l.foldl addUnique acc ↔ x ∈ acc ∨ x ∈ l := by
  induction l with
  | nil =>
    intro acc x
    simp
  | cons y ys ih =>
    intro acc x
    rw [List.foldl_cons, ih, mem_addUnique, List.mem_cons]
    constructor
    · rintro ((h | h) | h)
      · exact Or.inl h
      · exact Or.inr (Or.inl h)
      · exact Or.inr (Or.inr h)
    · rintro (h | (h | h))
      · exact Or.inl (Or.inl h)
      · exact Or.inl (Or.inr h)
      · exact Or.inr h

theorem nodup_foldl_addUnique (l : List String) :
    ∀ (acc : List String), acc.Nodup → (l.foldl addUnique acc).Nodup := by
  induction l with
  | nil => intro acc h; exact h
  | cons y ys ih =>
    intro acc h
    rw [List.foldl_cons]
    exact ih _ (nodup_addUnique h y)

theorem mem_numbersInGroup (w2n : List (String × List String)) (g : HomonymGroup)
    (m : String) :
    m ∈ numbersInGroup w2n g ↔ ∃ w ∈ g.words, m ∈ mapGetD w2n w := by
  rw [numbersInGroup]
  suffices h : ∀ (ws : List String) (acc : List String),
      m ∈ ws.foldl (fun acc w => (mapGetD w2n w).foldl addUnique acc) acc
        ↔ m ∈ acc ∨ ∃ w ∈ ws, m ∈ mapGetD w2n w by
    rw [h g.words []]
    simp
  intro ws
  induction ws with
  | nil =>
    intro acc
    simp
  | cons w ws ih =>
    intro acc
    rw [List.foldl_cons, ih, mem_foldl_addUnique]
    constructor
    · rintro ((h | h) | ⟨w', hw', hm⟩)
      · exact Or.inl h
      · exact Or.inr ⟨w, List.mem_cons_self _ _, h⟩
      · exact Or.inr ⟨w', List.mem_cons_of_mem _ hw', hm⟩
    · rintro (h | ⟨w', hw', hm⟩)
      · exact Or.inl (Or.inl h)
      · rcases List.mem_cons.mp hw' with rfl | hw2
        · exact Or.inl (Or.inr hm)
        · exact Or.inr ⟨w', hw2, hm⟩

theorem nodup_numbersInGroup (w2n : List (String × List String)) (g : HomonymGroup) :
    (numbersInGroup w2n g).Nodup := by
  rw [numbersInGroup]
  suffices h : ∀ (ws : List String) (acc : List String), acc.Nodup →
      (ws.foldl (fun acc w => (mapGetD w2n w).foldl addUnique acc) acc).Nodup from
    h g.words [] List.nodup_nil
  intro ws
  induction ws with
  | nil => intro acc h; exact h
  | cons w ws ih =>
    intro acc h
    rw [List.foldl_cons]
    exact ih _ (nodup_foldl_addUnique _ _ h)

theorem mem_mapGetD_wordToNumbers (fw : List (String × String)) (w m : String) :
    m ∈ mapGetD (wordToNumbers fw) w ↔ (m, w) ∈ fw := by
  have hdef : wordToNumbers fw = groupFold (fun e => e.2) (fun e => e.1) fw [] := rfl
  rw [hdef, mapGetD_groupFold]
  have hnil : mapGetD ([] : List (String × List String)) w = [] := rfl
  rw [hnil, List.nil_append]
  constructor
  · intro hm
    rcases List.mem_map.mp hm with ⟨e, hef, rfl⟩
    have he := List.mem_filter.mp hef
    have h2 : e.2 = w := by simpa using he.2
    have hmem : (e.1, e.2) ∈ fw := he.1
    rwa [h2] at hmem
  · intro hm
    exact List.mem_map.mpr ⟨(m, w), List.mem_filter.mpr ⟨hm, by simp⟩, rfl⟩

/-! ## The conflict-recording fold -/

theorem mapFind?_mapSet {β : Type} (m : List (String × List β)) (k : String)
    (v : List β) (k' : String) :
    mapFind? (mapSet m k v) k' = if k = k' then some v else mapFind? m k' := by
  induction m with
  | nil =>
    rw [mapSet, mapFind?_cons]
  | cons e rest ih =>
    obtain ⟨k0, v0⟩ := e
    rw [mapSet]
    by_cases h0 : k0 = k
    · subst h0
      rw [if_pos rfl, mapFind?_cons, mapFind?_cons]
      by_cases h : k0 = k' <;> simp [h]
    · rw [if_neg h0, mapFind?_cons, ih, mapFind?_cons]
      split_ifs with h1 h2
      · exact absurd (h1.trans h2.symm) h0
      · rfl
      · rfl
      · rfl

theorem mapFind?_foldl_mapSet (f : String → List String) :
    ∀ (nums : List String) (acc : List (String × List String)) (n : String),
      nums.Nodup →
      mapFind? (nums.foldl (fun c num => mapSet c num (f num)) acc) n
        = if n ∈ nums then some (f n) else mapFind? acc n := by
  intro nums
  induction nums with
  | nil =>
    intro acc n _
    simp
  | cons x xs ih =>
    intro acc n hnd
    rw [List.nodup_cons] at hnd
    rw [List.foldl_cons, ih _ _ hnd.2]
    by_cases hx : n ∈ xs
    · rw [if_pos hx, if_pos (List.mem_cons_of_mem _ hx)]
    · rw [if_neg hx, mapFind?_mapSet]
      by_cases hn : x = n
      · subst hn
        rw [if_pos rfl, if_pos (List.mem_cons_self _ _)]
      · rw [if_neg hn, if_neg ?hnmem]
        case hnmem =>
          intro hc
          rcases List.mem_cons.mp hc with rfl | hc2
          · exact hn rfl
          · exact hx hc2

theorem mapFind?_conflictsFold_some (w2n : List (String × List String)) :
    ∀ (gs : List HomonymGroup) (acc : List (String × List String))
      (n : String) (ns : List String),
      mapFind? (gs.foldl (fun conflicts g =>
        if 1 < (numbersInGroup w2n g).length then
          (numbersInGroup w2n g).foldl
            (fun c num => mapSet c num ((numbersInGroup w2n g).filter (· ≠ num))) conflicts
        else conflicts) acc) n = some ns →
      (∃ g ∈ gs, 1 < (numbersInGroup w2n g).length ∧ n ∈ numbersInGroup w2n g ∧
          ns = (numbersInGroup w2n g).filter (· ≠ n)) ∨
        mapFind? acc n = some ns := by
  intro gs
  induction gs with
  | nil =>
    intro acc n ns h
    exact Or.inr h
  | cons g0 gs ih =>
    intro acc n ns h
    rw [List.foldl_cons] at h
    rcases ih _ n ns h with ⟨g, hg, hc⟩ | hacc
    · exact Or.inl ⟨g, List.mem_cons_of_mem _ hg, hc⟩
    · by_cases hlen : 1 < (numbersInGroup w2n g0).length
      · rw [if_pos hlen, mapFind?_foldl_mapSet _ _ _ _ (nodup_numbersInGroup w2n g0)] at hacc
        by_cases hn : n ∈ numbersInGroup w2n g0
        · rw [if_pos hn] at hacc
          refine Or.inl ⟨g0, List.mem_cons_self _ _, hlen, hn, ?_⟩
          cases hacc
          rfl
        · rw [if_neg hn] at hacc
          exact Or.inr hacc
      · rw [if_neg hlen] at hacc
        exact Or.inr hacc

theorem mapFind?_conflictsFold_of_unique (w2n : List (String × List String))
    (g : HomonymGroup) :
    ∀ (gs : List HomonymGroup) (acc : List (String × List String)) (n : String),
      (∀ g' ∈ gs, n ∈ numbersInGroup w2n g' → g' = g) →
      1 < (numbersInGroup w2n g).length → n ∈ numbersInGroup w2n g →
      (g ∈ gs ∨ mapFind? acc n = some ((numbersInGroup w2n g).filter (· ≠ n))) →
      mapFind? (gs.foldl (fun conflicts g =>
        if 1 < (numbersInGroup w2n g).length then
          (numbersInGroup w2n g).foldl
            (fun c num => mapSet c num ((numbersInGroup w2n g).filter (· ≠ num))) conflicts
        else conflicts) acc) n
        = some ((numbersInGroup w2n g).filter (· ≠ n)) := by
  intro gs
  induction gs with
  | nil =>
    intro acc n _ _ _ hd
    rcases hd with hd | hd
    · simp at hd
    · exact hd
  | cons g0 gs ih =>
    intro acc n hu hlen hn hd
    rw [List.foldl_cons]
    by_cases hn0 : n ∈ numbersInGroup w2n g0
    · have hg0 : g0 = g := hu g0 (List.mem_cons_self _ _) hn0
      subst hg0
      rw [if_pos hlen]
      apply ih _ n (fun g' hg' hng' => hu g' (List.mem_cons_of_mem _ hg') hng') hlen hn
      right
      rw [mapFind?_foldl_mapSet _ _ _ _ (nodup_numbersInGroup w2n g0), if_pos hn]
    · have hd' : g ∈ gs ∨ mapFind? (if 1 < (numbersInGroup w2n g0).length then
          (numbersInGroup w2n g0).foldl
            (fun c num => mapSet c num ((numbersInGroup w2n g0).filter (· ≠ num))) acc
        else acc) n = some ((numbersInGroup w2n g).filter (· ≠ n)) := by
        rcases hd with hd | hd
        · rcases List.mem_cons.mp hd with rfl | hd2
          · exact absurd hn hn0
          · exact Or.inl hd2
        · right
          by_cases hlen0 : 1 < (numbersInGroup w2n g0).length
          · rw [if_pos hlen0,
              mapFind?_foldl_mapSet _ _ _ _ (nodup_numbersInGroup w2n g0), if_neg hn0]
            exact hd
          · rw [if_neg hlen0]
            exact hd
      exact ih _ n (fun g' hg' hng' => hu g' (List.mem_cons_of_mem _ hg') hng') hlen hn hd'

/-! ## Group-level facts over a filled table -/

theorem groupHomonyms_words_pk {pk : String → String} {cs : Bool} {ws : List String}
    {g : HomonymGroup} (hg : g ∈ groupHomonyms pk cs ws) :
    ∀ w ∈ g.words, pk w = g.phoneticCode := by
  rcases (mem_groupHomonyms_iff pk cs ws g).mp hg with ⟨code, hlen, rfl⟩
  intro w hw
  rw [dedupFirst_mem] at hw
  have hf := List.mem_filter.mp hw
  simpa using hf.2

theorem groupHomonyms_eq_of_code {pk : String → String} {cs : Bool} {ws : List String}
    {g1 g2 : HomonymGroup} (h1 : g1 ∈ groupHomonyms pk cs ws)
    (h2 : g2 ∈ groupHomonyms pk cs ws)
    (hc : g1.phoneticCode = g2.phoneticCode) : g1 = g2 := by
  rcases (mem_groupHomonyms_iff pk cs ws g1).mp h1 with ⟨c1, -, rfl⟩
  rcases (mem_groupHomonyms_iff pk cs ws g2).mp h2 with ⟨c2, -, rfl⟩
  have : c1 = c2 := hc
  rw [this]

theorem group_unique_for_number {pk : String → String} {t : List (String × String)}
    (hnd : (t.map Prod.fst).Nodup) {g1 g2 : HomonymGroup}
    (hg1 : g1 ∈ groupHomonyms pk false ((filledWords t).map (fun e => e.2)))
    (hg2 : g2 ∈ groupHomonyms pk false ((filledWords t).map (fun e => e.2)))
    {m : String}
    (hm1 : m ∈ numbersInGroup (wordToNumbers (filledWords t)) g1)
    (hm2 : m ∈ numbersInGroup (wordToNumbers (filledWords t)) g2) : g1 = g2 := by
  rcases (mem_numbersInGroup _ _ _).mp hm1 with ⟨w1, hw1, hmw1⟩
  rcases (mem_numbersInGroup _ _ _).mp hm2 with ⟨w2, hw2, hmw2⟩
  rw [mem_mapGetD_wordToNumbers] at hmw1 hmw2
  have hw : w1 = w2 := keys_unique (filledWords_keys_nodup hnd) hmw1 hmw2
  apply groupHomonyms_eq_of_code hg1 hg2
  rw [← groupHomonyms_words_pk hg1 w1 hw1, hw, groupHomonyms_words_pk hg2 w2 hw2]

theorem one_lt_length_of_two_mem {l : List String} {a b : String}
    (ha : a ∈ l) (hb : b ∈ l) (hab : a ≠ b) : 1 < l.length := by
  cases l with
  | nil => simp at ha
  | cons x xs =>
    cases xs with
    | nil =>
      rw [List.mem_singleton] at ha hb
      exact absurd (ha.trans hb.symm) hab
    | cons y ys =>
      simp only [List.length_cons]
      omega

theorem one_lt_numbersInGroup {pk : String → String} {t : List (String × String)}
    (hnd : (t.map Prod.fst).Nodup) {g : HomonymGroup}
    (hg : g ∈ groupHomonyms pk false ((filledWords t).map (fun e => e.2))) :
    1 < (numbersInGroup (wordToNumbers (filledWords t)) g).length := by
  rcases (mem_groupHomonyms_iff _ _ _ _).mp hg with ⟨code, hlen, hgeq⟩
  rw [normKept_allWords] at hlen hgeq
  have hfm : ((filledWords t).map (fun e => e.2)).filter (fun w => pk w = code)
      = ((filledWords t).filter (fun e => pk e.2 = code)).map (fun e => e.2) := by
    rw [List.filter_map]
    rfl
  rw [hfm, List.length_map] at hlen
  obtain ⟨e1, rest1, hl1⟩ :
      ∃ e1 rest1, (filledWords t).filter (fun e => pk e.2 = code) = e1 :: rest1 := by
    cases hc : (filledWords t).filter (fun e => pk e.2 = code) with
    | nil => rw [hc] at hlen; simp at hlen
    | cons a b => exact ⟨a, b, rfl⟩
  obtain ⟨e2, rest2, hl2⟩ : ∃ e2 rest2, rest1 = e2 :: rest2 := by
    cases hc : rest1 with
    | nil => rw [hl1, hc] at hlen; simp at hlen
    | cons a b => exact ⟨a, b, rfl⟩
  subst hl2
  have hnd' : ((e1 :: e2 :: rest2).map Prod.fst).Nodup := by
    rw [← hl1]
    exact (filledWords_keys_nodup hnd).sublist
      (List.Sublist.map Prod.fst (List.filter_sublist (filledWords t)))
  have hne : e1.1 ≠ e2.1 := by
    rw [List.map_cons, List.map_cons, List.nodup_cons] at hnd'
    intro hc
    exact hnd'.1 (hc ▸ List.mem_cons_self _ _)
  have hmem : ∀ e ∈ e1 :: e2 :: rest2,
      e.1 ∈ numbersInGroup (wordToNumbers (filledWords t)) g := by
    intro e he
    rw [← hl1] at he
    have hef := List.mem_filter.mp he
    apply (mem_numbersInGroup _ _ _).mpr
    refine ⟨e.2, ?_, (mem_mapGetD_wordToNumbers _ _ _).mpr ?_⟩
    · rw [hgeq]
      show e.2 ∈ dedupFirst (((filledWords t).map (fun e => e.2)).filter
        (fun w => pk w = code))
      rw [dedupFirst_mem, hfm]
      exact List.mem_map.mpr ⟨e, List.mem_filter.mpr hef, rfl⟩
    · have heta : (e.1, e.2) ∈ filledWords t ↔ e ∈ filledWords t := by rw [Prod.mk.eta]
      exact heta.mpr hef.1
  exact one_lt_length_of_two_mem (hmem e1 (List.mem_cons_self _ _))
    (hmem e2 (List.mem_cons_of_mem _ (List.mem_cons_self _ _))) hne

theorem groupHomonyms_nil {pk : String → String} {cs : Bool} {g : HomonymGroup}
    (hg : g ∈ groupHomonyms pk cs []) : False := by
  rcases (mem_groupHomonyms_iff pk cs [] g).mp hg with ⟨code, hlen, -⟩
  simp [normKept] at hlen

/-- The central characterization of the conflict map: `n` is bound to `ns`
exactly when `n` belongs to some homonym group and `ns` is that group's
number set without `n`. -/
theorem mapFind?_homonymConflicts (pk : String → String) (t : List (String × String))
    (hnd : (t.map Prod.fst).Nodup) (n : String) (ns : List String) :
    mapFind? (homonymConflicts pk t) n = some ns ↔
      ∃ g ∈ groupHomonyms pk false ((filledWords t).map (fun e => e.2)),
        n ∈ numbersInGroup (wordToNumbers (filledWords t)) g ∧
        ns = (numbersInGroup (wordToNumbers (filledWords t)) g).filter (· ≠ n) := by
  by_cases hfw : (filledWords t).length = 0
  · rw [homonymConflicts, if_pos hfw]
    have hfw' : filledWords t = [] := List.length_eq_zero.mp hfw
    constructor
    · intro h
      exact absurd h (by simp [mapFind?])
    · rintro ⟨g, hg, -, -⟩
      rw [hfw'] at hg
      exact absurd hg (by intro hc; exact groupHomonyms_nil hc)
  · rw [homonymConflicts, if_neg hfw, conflictsFold]
    constructor
    · intro h
      rcases mapFind?_conflictsFold_some _ _ _ _ _ h with ⟨g, hg, -, hn, hns⟩ | hacc
      · exact ⟨g, hg, hn, hns⟩
      · exact absurd hacc (by simp [mapFind?])
    · rintro ⟨g, hg, hn, rfl⟩
      apply mapFind?_conflictsFold_of_unique _ g _ _ n
        (fun g' hg' hng' => group_unique_for_number hnd hg' hg hng' hn)
        (one_lt_numbersInGroup hnd hg) hn (Or.inl hg)

/-! ## Further supporting lemmas -/

/-- Is `c` an ASCII letter (`a`-`z` or `A`-`Z`)? -/
def isAsciiLetter (c : Char) : Bool := ('a' ≤ c && c ≤ 'z') || ('A' ≤ c && c ≤ 'Z')

theorem lowerChar_not_az {c : Char} (h : isAsciiLetter c = false)
    (hk : c ≠ '\u212A') : isLowerAZ (jsLowerChar c) = false := by
  rw [isAsciiLetter, Bool.or_eq_false_iff] at h
  unfold jsLowerChar
  split
  all_goals first
    | exact absurd h.2 (by decide)
    | exact absurd rfl hk
    | exact h.1

/-! ## Claim theorems -/

/-- C1: for every two-digit key and every word whose trimmed form is
non-empty, `validateWord` returns `true` exactly when the key's digits occur
in order (not necessarily contiguously) in the word's digit sequence; the
cursor walk fails exactly when some target digit has no occurrence at or
after the cursor. -/
theorem validateWord_subsequence_correct (num word : String)
    (hnum : num.data.length = 2) (hw : jsTrim word ≠ "") :
    validateWord num word = true ↔ List.Sublist num.data (wordDigits word) :=
  validateWord_iff_sublist num word hw

theorem validateWord_subsequence_correct_witness :
    ("12".data.length = 2 ∧ jsTrim "tan" ≠ "") ∧
      (validateWord "12" "tan" = true ↔ List.Sublist "12".data (wordDigits "tan")) :=
  ⟨⟨by decide, by decide⟩,
    validateWord_subsequence_correct "12" "tan" (by decide) (by decide)⟩

/-- C2 counterexample: inserting the consonant `h` into `"can"` (valid for
key `"72"`: c→k→7, n→2) at position 1 yields `"chan"`, where the inserted
consonant turns `c` into the digraph `ch` (digit 6), so validity is lost:
consonant insertion does not preserve validity. -/
theorem insert_consonant_breaks_validity :
    validateWord "72" "can" = true ∧
      "chan".data = "can".data.take 1 ++ ['h'] ++ "can".data.drop 1 ∧
      isAsciiLetter 'h' = true ∧
      validateWord "72" "chan" = false := by decide

/-- C2 (amended): validity is monotone at the digit-sequence level: if a
word `w` is valid for a key and `w'` is any word whose digit sequence
contains `w`'s digit sequence as a subsequence (in particular, any
modification of `w` that only adds digit-mapped symbols without disturbing
the reading of the existing ones), then `w'` is valid for that key. -/
theorem validity_monotone_under_digit_supersequence (num w w' : String)
    (hw : jsTrim w ≠ "") (hv : validateWord num w = true)
    (hsub : List.Sublist (wordDigits w) (wordDigits w')) :
    validateWord num w' = true := by
  by_cases hw' : jsTrim w' = ""
  · rw [validateWord, if_pos hw']
  · rw [validateWord_iff_sublist num w' hw']
    exact ((validateWord_iff_sublist num w hw).mp hv).trans hsub

theorem validity_monotone_under_digit_supersequence_witness :
    (jsTrim "tan" ≠ "" ∧ validateWord "12" "tan" = true ∧
      List.Sublist (wordDigits "tan") (wordDigits "tank")) ∧
      validateWord "12" "tank" = true :=
  ⟨⟨by decide, by decide, by decide⟩,
    validity_monotone_under_digit_supersequence "12" "tan" "tank"
      (by decide) (by decide) (by decide)⟩

/-- C3 counterexample: for the empty word, `validateWord "00" ""` is `true`
(blank words are vacuously valid) but `getValidPositionsForWord ""` is the
empty list, so `"00"` is not a member: the claimed equivalence fails for
blank words. -/
theorem blank_word_positions_mismatch :
    validateWord "00" "" = true ∧ getValidPositionsForWord "" = [] := by decide

/-- C3 (amended): for every word whose trimmed form is non-empty and every
key `"00"`..`"99"`, the key is a member of `getValidPositionsForWord` exactly
when `validateWord` accepts it.  (Blank words short-circuit to the empty
position list even though every key validates them.) -/
theorem mem_validPositions_iff_validateWord (word : String) (hw : jsTrim word ≠ "")
    (i : Nat) (hi : i < 100) :
    toKey i ∈ getValidPositionsForWord word ↔ validateWord (toKey i) word = true := by
  rw [getValidPositionsForWord, if_neg hw]
  rw [List.mem_filter]
  constructor
  · intro h
    exact h.2
  · intro h
    exact ⟨List.mem_map.mpr ⟨i, List.mem_range.mpr hi, rfl⟩, h⟩

theorem mem_validPositions_iff_validateWord_witness :
    (jsTrim "tan" ≠ "" ∧ 12 < 100) ∧
      (toKey 12 ∈ getValidPositionsForWord "tan" ↔ validateWord (toKey 12) "tan" = true) :=
  ⟨⟨by decide, by decide⟩,
    mem_validPositions_iff_validateWord "tan" (by decide) 12 (by decide)⟩

/-- C5 counterexample: `"tea"` has digit sequence `['1']`, but key `"01"`
requires a `'0'` before the `'1'`, so `validateWord "01" "tea"` is `false`
and `"01"` is not among the valid positions of `"tea"` — the claim that
`validPositionsFor("tea")` is exactly `{"01"}` fails. -/
theorem tea_key01_fails :
    wordDigits "tea" = ['1'] ∧ validateWord "01" "tea" = false ∧
      "01" ∉ getValidPositionsForWord "tea" := by decide

/-- C5 (amended): `"tea"` encodes to the digit sequence `['1']` (t→1, vowels
dropped), and `getValidPositionsForWord "tea"` is empty: no two-digit key's
digit pattern is a subsequence of the single-digit sequence `['1']`. -/
theorem tea_digits_and_positions :
    wordDigits "tea" = ['1'] ∧ getValidPositionsForWord "tea" = [] := by decide

/-- C6: `phoneticToDigit` maps exactly the tabled symbols
(s,z→0 · t,d,th→1 · n→2 · m→3 · r→4 · l→5 · j,sh,ch→6 · k,g,q,qu→7 ·
f,v,ph→8 · p,b→9) to their digits, and every other symbol to `none`,
never failing. -/
theorem phoneticToDigit_spec :
    (phoneticToDigit "s" = some '0' ∧ phoneticToDigit "z" = some '0' ∧
     phoneticToDigit "t" = some '1' ∧ phoneticToDigit "d" = some '1' ∧
     phoneticToDigit "th" = some '1' ∧ phoneticToDigit "n" = some '2' ∧
     phoneticToDigit "m" = some '3' ∧ phoneticToDigit "r" = some '4' ∧
     phoneticToDigit "l" = some '5' ∧ phoneticToDigit "j" = some '6' ∧
     phoneticToDigit "sh" = some '6' ∧ phoneticToDigit "ch" = some '6' ∧
     phoneticToDigit "k" = some '7' ∧ phoneticToDigit "g" = some '7' ∧
     phoneticToDigit "q" = some '7' ∧ phoneticToDigit "qu" = some '7' ∧
     phoneticToDigit "f" = some '8' ∧ phoneticToDigit "v" = some '8' ∧
     phoneticToDigit "ph" = some '8' ∧ phoneticToDigit "p" = some '9' ∧
     phoneticToDigit "b" = some '9') ∧
    ∀ p : String,
      p ∉ (["s", "z", "t", "d", "th", "n", "m", "r", "l", "j", "sh", "ch",
            "k", "g", "q", "qu", "f", "v", "ph", "p", "b"] : List String) →
        phoneticToDigit p = none := by
  constructor
  · decide
  · intro p hp
    have hkeys : ∀ e ∈ digitMap, e.1 ∈
        (["s", "z", "t", "d", "th", "n", "m", "r", "l", "j", "sh", "ch",
          "k", "g", "q", "qu", "f", "v", "ph", "p", "b"] : List String) := by decide
    have hnone : digitMap.find? (fun e => e.1 = p) = none := by
      apply List.find?_eq_none.mpr
      intro x hx
      simp only [decide_eq_true_eq]
      intro hEq
      exact hp (hEq ▸ hkeys x hx)
    rw [phoneticToDigit, hnone]
    rfl

theorem phoneticToDigit_spec_witness :
    ("h" ∉ (["s", "z", "t", "d", "th", "n", "m", "r", "l", "j", "sh", "ch",
             "k", "g", "q", "qu", "f", "v", "ph", "p", "b"] : List String)) ∧
      phoneticToDigit "h" = none :=
  ⟨by decide, phoneticToDigit_spec.2 "h" (by decide)⟩

/-- C7: the empty word encodes to the empty symbol sequence, and every word
whose trimmed form is empty is vacuously valid for every key; in particular
`validateWord "00" "" = true`. -/
theorem blank_words_vacuously_valid :
    wordToPhonetics "" = [] ∧
      ∀ num word : String, jsTrim word = "" → validateWord num word = true := by
  refine ⟨rfl, ?_⟩
  intro num word hw
  rw [validateWord, if_pos hw]

theorem blank_words_vacuously_valid_witness :
    jsTrim "" = "" ∧ validateWord "00" "" = true :=
  ⟨by decide, blank_words_vacuously_valid.2 "00" "" (by decide)⟩

/-- C8: digit extraction is a function of a word's letters only: two words
that agree after lowercasing and removing every character outside `a`-`z`
produce the same symbol sequence and hence the same digit sequence. -/
theorem digits_function_of_letters (w1 w2 : String)
    (h : normalize w1 = normalize w2) :
    wordToPhonetics w1 = wordToPhonetics w2 ∧ wordDigits w1 = wordDigits w2 := by
  have hp : wordToPhonetics w1 = wordToPhonetics w2 := by
    rw [wordToPhonetics, wordToPhonetics, h]
  exact ⟨hp, by rw [wordDigits, wordDigits, hp]⟩

theorem digits_function_of_letters_witness :
    normalize "Tea!" = normalize "tea" ∧
      (wordToPhonetics "Tea!" = wordToPhonetics "tea" ∧
        wordDigits "Tea!" = wordDigits "tea") :=
  ⟨by decide, digits_function_of_letters "Tea!" "tea" (by decide)⟩

/-- C10 counterexample: JS `toLowerCase` maps U+212A KELVIN SIGN to `k`, so
the word made of two Kelvin signs — which is not blank and contains no ASCII
letter — normalizes to `kk`, encodes to the digits `[7, 7]` and validates
for key `"77"`: a letterless word is not always rejected. -/
theorem kelvin_word_validates :
    jsTrim "\u212A\u212A" ≠ "" ∧
      (∀ c ∈ "\u212A\u212A".data, isAsciiLetter c = false) ∧
      wordDigits "\u212A\u212A" = ['7', '7'] ∧
      validateWord "77" "\u212A\u212A" = true := by decide

/-- C10 (amended): a word with some non-whitespace character but no
character whose JS-lowercased form is an ASCII letter (that is, no ASCII
letter and no U+212A KELVIN SIGN, the one other character that lowercases
into `a`-`z`) is rejected for every two-digit key: its digit sequence is
empty, so the first target digit is never found. -/
theorem letterless_word_invalid (num word : String)
    (hnum : num.data.length = 2) (hw : jsTrim word ≠ "")
    (hword : ∀ c ∈ word.data, isAsciiLetter c = false ∧ c ≠ '\u212A') :
    validateWord num word = false := by
  have hnorm : normalize word = [] := by
    rw [normalize, List.filter_eq_nil_iff]
    intro c hc
    rcases List.mem_map.mp hc with ⟨c0, hc0, rfl⟩
    simp [lowerChar_not_az (hword c0 hc0).1 (hword c0 hc0).2]
  have hdig : wordDigits word = [] := by
    rw [wordDigits, wordToPhonetics, hnorm]
    rfl
  obtain ⟨d1, rest, hnd⟩ : ∃ d1 rest, num.data = d1 :: rest := by
    cases hn : num.data with
    | nil => rw [hn] at hnum; simp at hnum
    | cons a t => exact ⟨a, t, rfl⟩
  simp only [validateWord, if_neg hw]
  rw [if_neg (by rw [hnd]; simp)]
  rw [hdig, hnd, checkFrom, indexOfFrom]
  rfl

theorem letterless_word_invalid_witness :
    ("00".data.length = 2 ∧ jsTrim "!!!" ≠ "" ∧
      (∀ c ∈ "!!!".data, isAsciiLetter c = false ∧ c ≠ '\u212A')) ∧
      validateWord "00" "!!!" = false :=
  ⟨⟨by decide, by decide, by decide⟩,
    letterless_word_invalid "00" "!!!" (by decide) (by decide) (by decide)⟩

/-- C4 counterexample: `groupHomonyms` filters on the number of collected
word occurrences before deduplicating, so the same word appearing twice
forms a homonym group with a single distinct word (with any deterministic
phonetic-key function, here a constant one standing in for Double
Metaphone's deterministic primary code). -/
theorem single_word_group_counterexample :
    groupHomonyms (fun _ => "0R") false ["there", "there"]
      = [⟨"0R", ["there"]⟩] := by decide

/-- C4 (amended): `groupHomonyms` returns, as homonym groups, exactly those
phonetic-key partitions of the non-empty, trimmed, lowercased input words
that contain at least 2 word occurrences counted with multiplicity (so a
single distinct word occurring twice does qualify), each group listing its
distinct words; and for a table with distinct numbers, every number whose
word lies in a homonym group is mapped in the conflict map to exactly the
other numbers of that group. -/
theorem groupHomonyms_groups_and_conflicts (pk : String → String)
    (t : List (String × String)) (hnd : (t.map Prod.fst).Nodup) :
    (∀ (ws : List String) (g : HomonymGroup),
        g ∈ groupHomonyms pk false ws ↔
          ∃ code,
            1 < ((normKept false ws).filter (fun w => pk w = code)).length ∧
            g = ⟨code, dedupFirst ((normKept false ws).filter (fun w => pk w = code))⟩) ∧
    (∀ n w, (n, w) ∈ filledWords t →
      ∀ g ∈ groupHomonyms pk false ((filledWords t).map (fun e => e.2)),
        w ∈ g.words →
          ∃ ns, mapFind? (homonymConflicts pk t) n = some ns ∧
            ∀ m, m ∈ ns ↔
              ((∃ w', (m, w') ∈ filledWords t ∧ w' ∈ g.words) ∧ m ≠ n)) := by
  refine ⟨fun ws g => mem_groupHomonyms_iff pk false ws g, ?_⟩
  intro n w hnw g hg hwg
  have hn : n ∈ numbersInGroup (wordToNumbers (filledWords t)) g :=
    (mem_numbersInGroup _ _ _).mpr ⟨w, hwg, (mem_mapGetD_wordToNumbers _ _ _).mpr hnw⟩
  refine ⟨(numbersInGroup (wordToNumbers (filledWords t)) g).filter (· ≠ n),
    (mapFind?_homonymConflicts pk t hnd n _).mpr ⟨g, hg, hn, rfl⟩, ?_⟩
  intro m
  rw [List.mem_filter, mem_numbersInGroup]
  constructor
  · rintro ⟨⟨w', hw'g, hmw'⟩, hmn⟩
    rw [mem_mapGetD_wordToNumbers] at hmw'
    exact ⟨⟨w', hmw', hw'g⟩, by simpa using hmn⟩
  · rintro ⟨⟨w', hmw', hw'g⟩, hmn⟩
    exact ⟨⟨w', hw'g, (mem_mapGetD_wordToNumbers _ _ _).mpr hmw'⟩, by simpa using hmn⟩

theorem groupHomonyms_groups_and_conflicts_witness :
    ((([("00", "there"), ("01", "their")] : List (String × String)).map Prod.fst).Nodup) ∧
    ((∀ (ws : List String) (g : HomonymGroup),
        g ∈ groupHomonyms (fun _ => "0R") false ws ↔
          ∃ code,
            1 < ((normKept false ws).filter (fun w => (fun _ => "0R") w = code)).length ∧
            g = ⟨code, dedupFirst ((normKept false ws).filter
              (fun w => (fun _ => "0R") w = code))⟩) ∧
    (∀ n w, (n, w) ∈ filledWords [("00", "there"), ("01", "their")] →
      ∀ g ∈ groupHomonyms (fun _ => "0R") false
          ((filledWords [("00", "there"), ("01", "their")]).map (fun e => e.2)),
        w ∈ g.words →
          ∃ ns, mapFind? (homonymConflicts (fun _ => "0R")
              [("00", "there"), ("01", "their")]) n = some ns ∧
            ∀ m, m ∈ ns ↔
              ((∃ w', (m, w') ∈ filledWords [("00", "there"), ("01", "their")] ∧
                w' ∈ g.words) ∧ m ≠ n))) :=
  ⟨by decide, groupHomonyms_groups_and_conflicts (fun _ => "0R")
    [("00", "there"), ("01", "their")] (by decide)⟩

/-- C9: for every table with distinct numbers, the homonym conflict map is
symmetric (`b` conflicts with `a` iff `a` conflicts with `b`) and
irreflexive (no number conflicts with itself). -/
theorem conflicts_symmetric_irreflexive (pk : String → String)
    (t : List (String × String)) (hnd : (t.map Prod.fst).Nodup) :
    (∀ a b, b ∈ conflictList pk t a ↔ a ∈ conflictList pk t b) ∧
      ∀ a, a ∉ conflictList pk t a := by
  have hdir : ∀ a b, b ∈ conflictList pk t a → a ∈ conflictList pk t b := by
    intro a b hb
    rw [conflictList, mapGetD] at hb
    cases hf : mapFind? (homonymConflicts pk t) a with
    | none =>
      rw [hf] at hb
      simp at hb
    | some ns =>
      rw [hf] at hb
      simp only [Option.getD_some] at hb
      rcases (mapFind?_homonymConflicts pk t hnd a ns).mp hf with ⟨g, hg, hag, hns⟩
      rw [hns, List.mem_filter] at hb
      have hbg := hb.1
      have hba : b ≠ a := by simpa using hb.2
      have hf2 := (mapFind?_homonymConflicts pk t hnd b _).mpr ⟨g, hg, hbg, rfl⟩
      rw [conflictList, mapGetD, hf2]
      simp only [Option.getD_some]
      rw [List.mem_filter]
      refine ⟨hag, ?_⟩
      simp only [decide_eq_true_eq]
      exact fun hc => hba hc.symm
  constructor
  · exact fun a b => ⟨hdir a b, hdir b a⟩
  · intro a ha
    rw [conflictList, mapGetD] at ha
    cases hf : mapFind? (homonymConflicts pk t) a with
    | none =>
      rw [hf] at ha
      simp at ha
    | some ns =>
      rw [hf] at ha
      simp only [Option.getD_some] at ha
      rcases (mapFind?_homonymConflicts pk t hnd a ns).mp hf with ⟨g, -, -, hns⟩
      rw [hns, List.mem_filter] at ha
      have := ha.2
      simp at this

theorem conflicts_symmetric_irreflexive_witness :
    ((([("00", "aa"), ("01", "aa")] : List (String × String)).map Prod.fst).Nodup) ∧
    ((∀ a b, b ∈ conflictList (fun w => w) [("00", "aa"), ("01", "aa")] a ↔
        a ∈ conflictList (fun w => w) [("00", "aa"), ("01", "aa")] b) ∧
      ∀ a, a ∉ conflictList (fun w => w) [("00", "aa"), ("01", "aa")] a) :=
  ⟨by decide, conflicts_symmetric_irreflexive (fun w => w)
    [("00", "aa"), ("01", "aa")] (by decide)⟩

end MajorSystem
